import Mathlib

/-!
Verification of the two-pool line-relay chat server
(source: src/building-blocks/examples/src/double_server.rs).

The embedding models bytes as natural numbers, buffers as byte lists, socket
addresses as numbers, and each unbounded mpsc channel by the list of messages
enqueued on it.  Socket effects are made explicit: a poll of the codec is a
function of the bytes the socket delivers, a closed flag, and the number of
bytes the write side currently accepts.
-/

namespace DoubleServer

/-- Bytes, as natural numbers (values 0 to 255 in practice). -/
abbrev Byte := Nat

/-- A byte buffer: `BytesMut` or `Bytes` in the source. -/
abbrev Buf := List Byte

/-- A remote socket address (`SocketAddr`), modelled abstractly as a number. -/
abbrev Addr := Nat

/-- The carriage-return byte of the two-byte line terminator. -/
def CR : Byte := 13

/-- The line-feed byte of the two-byte line terminator. -/
def LF : Byte := 10

/-- Scan of the read buffer for the first occurrence of the two-byte terminator,
as performed in the `Stream` impl for `Lines`: windows of width two are
enumerated and the index of the first window equal to the terminator is
returned. -/
def findCRLF : Buf → Option Nat
  | [] => none
  | [_] => none
  | a :: b :: rest =>
    if a = CR ∧ b = LF then some 0
    else (findCRLF (b :: rest)).map (· + 1)

/-- Line extraction from the read buffer, as in the `Stream` impl for `Lines`:
when the terminator is found at `pos`, `split_to(pos + 2)` removes the first
`pos + 2` bytes from the buffer as the line, and `split_off(pos)` then drops
the trailing terminator from that line.  The remainder after the terminator
stays in the read buffer. -/
def extractLine (rd : Buf) : Option (Buf × Buf) :=
  match findCRLF rd with
  | some pos => some ((rd.take (pos + 2)).take pos, rd.drop (pos + 2))
  | none => none

/-- Result of polling the `Lines` stream: a complete line, end of stream, or
not ready. -/
inductive PollResult where
  | ready : Buf → PollResult
  | eof : PollResult
  | notReady : PollResult
deriving DecidableEq

/-- One poll of the `Stream` impl for `Lines`.  First `fill_read_buf` appends
the bytes the socket delivers (`newBytes`) and reports whether the socket has
closed; then the buffer is scanned for a line.  A found line is returned
(`ready`); otherwise the poll reports `eof` exactly when the socket has
closed, else `notReady`. -/
def linesPoll (rd newBytes : Buf) (closed : Bool) : PollResult × Buf :=
  let rd2 := rd ++ newBytes
  match extractLine rd2 with
  | some (line, rest) => (PollResult.ready line, rest)
  | none => if closed then (PollResult.eof, rd2) else (PollResult.notReady, rd2)

/-- The write side of the codec: `Lines::buffer` appends the line to the
internal write buffer without touching the socket. -/
def bufferWrite (wr line : Buf) : Buf := wr ++ line

/-- Result of `Lines::poll_flush`: `Ready` when the write buffer fully
drained, `NotReady` when the socket would block. -/
inductive FlushResult where
  | ready
  | notReady
deriving DecidableEq

/-- Model of `Lines::poll_flush`: the socket accepts up to `writable` bytes
during this activation.  The flush loop writes until the buffer empties
(`ready`, empty buffer) or the socket would block (`notReady`, retaining the
unwritten remainder). -/
def pollFlushModel (wr : Buf) (writable : Nat) : FlushResult × Buf :=
  if wr.length ≤ writable then (FlushResult.ready, [])
  else (FlushResult.notReady, wr.drop writable)

/-- Message formatting in the `Future` impls for `CPeer` and `GOPeer`: the
peer name, the two bytes for colon and space, the received line, then the
two-byte terminator. -/
def formatMessage (name message : Buf) : Buf :=
  name ++ [58, 32] ++ message ++ [CR, LF]

/-- Bytes of an ASCII string, for concrete examples. -/
def strBytes (s : String) : Buf := s.data.map Char.toNat

/-- A shared peer map of one pool, observed through the queue contents
reachable from each stored transmit handle: each entry pairs an identity with
the list of messages so far enqueued on that peer's unbounded outbound
channel. -/
abbrev Registry := List (Addr × List Buf)

/-- The broadcast loop in the `Future` impls: for every entry of the target
map whose address differs from the sender's own address, the message is pushed
onto that entry's unbounded channel; an entry carrying the sender's own
address is left untouched. -/
def broadcastSend (reg : Registry) (self : Addr) (msg : Buf) : Registry :=
  reg.map (fun e => if e.1 = self then e else (e.1, e.2 ++ [msg]))

/-- The two pools of the bridge: the map shared by connections of the c
listener and the map shared by connections of the go listener. -/
structure Pools where
  cPeers : Registry
  goPeers : Registry
deriving DecidableEq

/-- Handling of one complete received line by a `CPeer` (a connection accepted
on the c listener): the formatted message is fanned out into the go pool; the
c pool is not touched. -/
def cPeerHandleLine (st : Pools) (self : Addr) (name message : Buf) : Pools :=
  ⟨st.cPeers, broadcastSend st.goPeers self (formatMessage name message)⟩

/-- Handling of one complete received line by a `GOPeer`: the formatted
message is fanned out into the c pool; the go pool is not touched. -/
def goPeerHandleLine (st : Pools) (self : Addr) (name message : Buf) : Pools :=
  ⟨broadcastSend st.cPeers self (formatMessage name message), st.goPeers⟩

/-- A peer map observed through which transmit handle (identified by a
number) is stored under each address key. -/
abbrev RegMap := List (Addr × Nat)

/-- Registration as performed in `CPeer::new` and `GOPeer::new`: an insert
into the shared map with the usual hash-map semantics — when the key is
already present its value is replaced (the returned old value is discarded by
the caller), otherwise the pair is added. -/
def registerPeer (reg : RegMap) (addr : Addr) (tx : Nat) : RegMap :=
  if addr ∈ reg.map Prod.fst then
    reg.map (fun e => if e.1 = addr then (addr, tx) else e)
  else reg ++ [(addr, tx)]

/-- Removal as performed in the `Drop` impls for `CPeer` and `GOPeer`: the
entry under the connection's own address is removed from its own pool. -/
def unregisterPeer (reg : RegMap) (addr : Addr) : RegMap :=
  reg.filter (fun e => e.1 != addr)

/-- The per-activation budget of the receive loop in both `Future` impls. -/
def LINES_PER_TICK : Nat := 10

/-- The receive loop of the `Future` impls with `budget` iterations left:
each iteration polls the unbounded receiver; a received message is appended to
the write buffer by `Lines::buffer`; when a message is received on the final
budgeted iteration the current task notifies itself (the returned flag), so
the executor schedules it again at once.  The loop stops early when the
receiver has nothing ready. -/
def drainMessages : Nat → List Buf → Buf → Buf × List Buf × Bool
  | 0, queue, wr => (wr, queue, true)
  | _ + 1, [], wr => (wr, [], false)
  | budget + 1, v :: queue, wr => drainMessages budget queue (bufferWrite wr v)

/-- One full drain pass as performed at the top of each poll activation. -/
def drainTick (queue : List Buf) (wr : Buf) : Buf × List Buf × Bool :=
  drainMessages LINES_PER_TICK queue wr

/-- Repeated scheduling turns, each running one drain pass; returns the write
buffer and the queue after `n` turns. -/
def drainRounds : Nat → List Buf → Buf → Buf × List Buf
  | 0, queue, wr => (wr, queue)
  | n + 1, queue, wr =>
    match drainTick queue wr with
    | (wr2, queue2, _) => drainRounds n queue2 wr2

/-- The read loop of the poll activation: repeatedly pull complete lines out
of the read buffer until none remains, collecting them in order.  Each
extracted line removes at least two bytes from the buffer, so the buffer
length bounds the number of iterations and serves as fuel. -/
def readLinesFuel : Nat → Buf → List Buf × Buf
  | 0, rd => ([], rd)
  | fuel + 1, rd =>
    match extractLine rd with
    | none => ([], rd)
    | some (line, rest) =>
      match readLinesFuel fuel rest with
      | (ls, rd2) => (line :: ls, rd2)

/-- The per-connection state carried by a peer between activations: its name,
its own address, its private inbound queue (the receive half of its channel),
and the write and read buffers of its codec. -/
structure CPeerSt where
  name : Buf
  addr : Addr
  rx : List Buf
  wr : Buf
  rd : Buf
deriving DecidableEq

/-- Outcome of one poll of the peer future: the future completed (end of
input) or stays pending. -/
inductive PollOutcome where
  | ready
  | notReady
deriving DecidableEq

/-- Fan-out of the lines read during one activation, in order. -/
def fanOutLines (reg : Registry) (self : Addr) (name : Buf) (ls : List Buf) : Registry :=
  ls.foldl (fun r line => broadcastSend r self (formatMessage name line)) reg

/-- One activation of the `Future` impl for `CPeer`: drain up to
`LINES_PER_TICK` queued messages into the write buffer; attempt a flush,
whose `Ready` or `NotReady` result is bound to an underscore and discarded
(only an error would propagate); then read every complete line available and
fan each out into the go pool; the future completes exactly when the stream
has closed.  The socket is modelled by the bytes `newBytes` it delivers this
activation, the flag `closed`, and the byte capacity `writable` of its write
side. -/
def cPeerPoll (st : CPeerSt) (pools : Pools) (writable : Nat) (newBytes : Buf)
    (closed : Bool) : CPeerSt × Pools × PollOutcome × FlushResult :=
  match drainTick st.rx st.wr with
  | (wr1, rx2, _) =>
    match pollFlushModel wr1 writable with
    | (fres, wr2) =>
      match readLinesFuel (st.rd ++ newBytes).length (st.rd ++ newBytes) with
      | (ls, rd2) =>
        (⟨st.name, st.addr, rx2, wr2, rd2⟩,
         ⟨pools.cPeers, fanOutLines pools.goPeers st.addr st.name ls⟩,
         if closed then PollOutcome.ready else PollOutcome.notReady,
         fres)

/-- One activation of the `Future` impl for `GOPeer`: identical to the c
variant except that the fan-out target is the c pool. -/
def goPeerPoll (st : CPeerSt) (pools : Pools) (writable : Nat) (newBytes : Buf)
    (closed : Bool) : CPeerSt × Pools × PollOutcome × FlushResult :=
  match drainTick st.rx st.wr with
  | (wr1, rx2, _) =>
    match pollFlushModel wr1 writable with
    | (fres, wr2) =>
      match readLinesFuel (st.rd ++ newBytes).length (st.rd ++ newBytes) with
      | (ls, rd2) =>
        (⟨st.name, st.addr, rx2, wr2, rd2⟩,
         ⟨fanOutLines pools.cPeers st.addr st.name ls, pools.goPeers⟩,
         if closed then PollOutcome.ready else PollOutcome.notReady,
         fres)

/-- Events observable around one broadcast: taking the pool mutex, one send
attempt per targeted entry, and releasing the mutex. -/
inductive BEvent where
  | lock
  | send : Addr → BEvent
  | unlock
deriving DecidableEq

/-- Event trace of one broadcast in the `Future` impls: the loop iterates the
locked shared map directly, so the mutex guard is acquired before the loop and
lives until the loop ends; every entry whose address differs from the sender
gets one send attempt while the guard is held. -/
def broadcastTrace (reg : Registry) (self : Addr) : List BEvent :=
  [BEvent.lock] ++ (reg.filter (fun e => e.1 != self)).map (fun e => BEvent.send e.1)
    ++ [BEvent.unlock]

/-- Modelled from the spec: a broadcast snapshot takes the lock, copies out
all current entries, releases the lock, and the send attempts then iterate
the copy after the unlock.  No such operation exists in the source; this
definition only states the trace shape the spec describes, for comparison
with `broadcastTrace`. -/
def broadcastSnapshotTrace (reg : Registry) (self : Addr) : List BEvent :=
  [BEvent.lock, BEvent.unlock]
    ++ (reg.filter (fun e => e.1 != self)).map (fun e => BEvent.send e.1)

/-- Whether some send event of the trace occurs while the lock is held. -/
def sendUnderLock : List BEvent → Bool → Bool
  | [], _ => false
  | BEvent.lock :: rest, _ => sendUnderLock rest true
  | BEvent.unlock :: rest, _ => sendUnderLock rest false
  | BEvent.send _ :: rest, held => held || sendUnderLock rest held

/-- Whether every send event of the trace occurs while the lock is held. -/
def allSendsUnderLock : List BEvent → Bool → Bool
  | [], _ => true
  | BEvent.lock :: rest, _ => allSendsUnderLock rest true
  | BEvent.unlock :: rest, _ => allSendsUnderLock rest false
  | BEvent.send _ :: rest, held => held && allSendsUnderLock rest held

/-- Lifecycle of one accepted connection: waiting for the first (name) line,
active (registered), or terminated. -/
inductive ConnSt where
  | awaitingName
  | active
  | terminated
deriving DecidableEq

/-- Update of the lifecycle state recorded for one connection. -/
def setConn (conns : List (Addr × ConnSt)) (addr : Addr) (st : ConnSt) :
    List (Addr × ConnSt) :=
  conns.map (fun e => if e.1 = addr then (addr, st) else e)

/-- One pool of the server: the lifecycle state of every connection accepted
on its listener together with that pool's shared peer map. -/
structure PoolSys where
  conns : List (Addr × ConnSt)
  reg : RegMap

/-- Transitions of one pool, as wired by `c_process` (and symmetrically
`go_process`).  A socket is accepted with a fresh remote address.  The first
received line triggers `CPeer::new`, which registers the address
(`receiveName`).  End of input before any line reaches the arm that returns
without creating a peer, terminating with no registry effect
(`eofBeforeName`).  Completion or failure of a registered peer drops it, and
its `Drop` impl removes its address from its own pool (`disconnect`). -/
inductive PoolStep : PoolSys → PoolSys → Prop where
  | accept (s : PoolSys) (addr : Addr) (hfresh : addr ∉ s.conns.map Prod.fst) :
      PoolStep s ⟨s.conns ++ [(addr, ConnSt.awaitingName)], s.reg⟩
  | receiveName (s : PoolSys) (addr : Addr) (tx : Nat)
      (h : (addr, ConnSt.awaitingName) ∈ s.conns) :
      PoolStep s ⟨setConn s.conns addr ConnSt.active, registerPeer s.reg addr tx⟩
  | eofBeforeName (s : PoolSys) (addr : Addr)
      (h : (addr, ConnSt.awaitingName) ∈ s.conns) :
      PoolStep s ⟨setConn s.conns addr ConnSt.terminated, s.reg⟩
  | disconnect (s : PoolSys) (addr : Addr)
      (h : (addr, ConnSt.active) ∈ s.conns) :
      PoolStep s ⟨setConn s.conns addr ConnSt.terminated, unregisterPeer s.reg addr⟩

/-- States of one pool reachable from the empty pool. -/
def Reachable (s : PoolSys) : Prop :=
  Relation.ReflTransGen PoolStep ⟨[], []⟩ s

/-- The two-byte terminator occurs at position `i` of the buffer. -/
def isTermAt (rd : Buf) (i : Nat) : Prop :=
  rd.get? i = some CR ∧ rd.get? (i + 1) = some LF

/-- Invariant tying a pool's registry to the lifecycle states of its
connections: addresses of accepted connections are distinct, and an address
holds a registry entry exactly when its connection is active. -/
def PoolInv (s : PoolSys) : Prop :=
  (s.conns.map Prod.fst).Nodup ∧
  ∀ a : Addr, (∃ tx, (a, tx) ∈ s.reg) ↔ (a, ConnSt.active) ∈ s.conns

/-- The index returned by the terminator scan is an occurrence of the
terminator, and no earlier index is one. -/
theorem findCRLF_spec : ∀ (rd : Buf) (p : Nat), findCRLF rd = some p →
    isTermAt rd p ∧ ∀ q, q < p → ¬ isTermAt rd q := by
  intro rd
  induction rd with
  | nil => intro p h; simp [findCRLF] at h
  | cons a tail ih =>
    cases tail with
    | nil => intro p h; simp [findCRLF] at h
    | cons b rest =>
      intro p h
      by_cases hab : a = CR ∧ b = LF
      · rw [findCRLF, if_pos hab] at h
        injection h with h0
        subst h0
        refine ⟨⟨?_, ?_⟩, ?_⟩
        · simpa using hab.1
        · simpa using hab.2
        · intro q hq; omega
      · rw [findCRLF, if_neg hab] at h
        obtain ⟨q0, hq0, rfl⟩ := Option.map_eq_some'.mp h
        obtain ⟨hterm, hfirst⟩ := ih q0 hq0
        refine ⟨⟨?_, ?_⟩, ?_⟩
        · simpa using hterm.1
        · simpa using hterm.2
        · intro q hq hqterm
          cases q with
          | zero =>
            apply hab
            refine ⟨?_, ?_⟩
            · simpa using hqterm.1
            · simpa using hqterm.2
          | succ q1 =>
            apply hfirst q1 (by omega)
            refine ⟨?_, ?_⟩
            · simpa using hqterm.1
            · simpa using hqterm.2

/-- Dropping up to a position known to hold a byte peels that byte off. -/
theorem drop_of_get? : ∀ (l : Buf) (i : Nat) (a : Byte), l.get? i = some a →
    l.drop i = a :: l.drop (i + 1) := by
  intro l
  induction l with
  | nil => intro i a h; simp at h
  | cons x xs ih =>
    intro i a h
    cases i with
    | zero => simp at h; simp [h]
    | succ j =>
      simp only [List.get?_cons_succ] at h
      simpa using ih j a h

/-- Claim C2: line extraction scans for the first occurrence of the two-byte
terminator; when found at position `p`, exactly the bytes before the
terminator are returned as the line and exactly the bytes after the
terminator are retained as the new read-buffer content. -/
theorem c2_line_extraction (rd : Buf) (p : Nat) (h : findCRLF rd = some p) :
    isTermAt rd p ∧ (∀ q, q < p → ¬ isTermAt rd q) ∧
    extractLine rd = some (rd.take p, rd.drop (p + 2)) ∧
    rd = rd.take p ++ [CR, LF] ++ rd.drop (p + 2) := by
  obtain ⟨hterm, hfirst⟩ := findCRLF_spec rd p h
  refine ⟨hterm, hfirst, ?_, ?_⟩
  · have ht : (rd.take (p + 2)).take p = rd.take p := by
      rw [List.take_take]
      have hm : min p (p + 2) = p := min_eq_left (by omega)
      rw [hm]
    simp only [extractLine, h, ht]
  · have h1 : rd.drop p = CR :: rd.drop (p + 1) := drop_of_get? rd p CR hterm.1
    have h2 : rd.drop (p + 1) = LF :: rd.drop (p + 2) := by
      have := drop_of_get? rd (p + 1) LF hterm.2
      simpa using this
    calc rd = rd.take p ++ rd.drop p := (List.take_append_drop p rd).symm
      _ = rd.take p ++ [CR, LF] ++ rd.drop (p + 2) := by
          rw [h1, h2, List.append_assoc]; rfl

/-- Witness for C2 at a concrete buffer holding one complete line and a
trailing remainder. -/
theorem c2_line_extraction_witness :
    findCRLF [97, 13, 10, 98] = some 1 ∧
    (isTermAt [97, 13, 10, 98] 1 ∧ (∀ q, q < 1 → ¬ isTermAt [97, 13, 10, 98] q) ∧
      extractLine [97, 13, 10, 98] = some ([97], [98]) ∧
      ([97, 13, 10, 98] : Buf) = [97] ++ [CR, LF] ++ [98]) :=
  ⟨by decide, c2_line_extraction [97, 13, 10, 98] 1 (by decide)⟩

/-- Claim C7: when the stream has reached end of input and the remaining
read-buffer content holds no terminator, the line stream signals end of
stream; the partial bytes are never emitted, and repeated polls keep
signalling end of stream. -/
theorem c7_partial_line_discarded (rd newBytes : Buf)
    (h : findCRLF (rd ++ newBytes) = none) :
    linesPoll rd newBytes true = (PollResult.eof, rd ++ newBytes) ∧
    (∀ line rest, linesPoll rd newBytes true ≠ (PollResult.ready line, rest)) ∧
    linesPoll (rd ++ newBytes) [] true = (PollResult.eof, rd ++ newBytes) := by
  have hx : extractLine (rd ++ newBytes) = none := by rw [extractLine, h]
  refine ⟨?_, ?_, ?_⟩
  · simp [linesPoll, hx]
  · intro line rest hcontra
    rw [linesPoll] at hcontra
    simp only [hx] at hcontra
    simp at hcontra
  · simp [linesPoll, hx]

/-- Witness for C7: two bytes with no terminator followed by stream end. -/
theorem c7_partial_line_discarded_witness :
    findCRLF ([104, 105] ++ []) = none ∧
    (linesPoll [104, 105] [] true = (PollResult.eof, [104, 105] ++ []) ∧
      (∀ line rest, linesPoll [104, 105] [] true ≠ (PollResult.ready line, rest)) ∧
      linesPoll ([104, 105] ++ []) [] true = (PollResult.eof, [104, 105] ++ [])) :=
  ⟨by decide, c7_partial_line_discarded [104, 105] [] (by decide)⟩

/-- Claim C10: a complete line already in the read buffer is emitted even
when the socket has closed, and end of stream is reported exactly when no
complete line remains and the socket has closed. -/
theorem c10_lines_before_eof (rd newBytes : Buf) (closed : Bool) :
    (∀ line rest, extractLine (rd ++ newBytes) = some (line, rest) →
        linesPoll rd newBytes closed = (PollResult.ready line, rest)) ∧
    ((linesPoll rd newBytes closed).1 = PollResult.eof ↔
        extractLine (rd ++ newBytes) = none ∧ closed = true) := by
  constructor
  · intro line rest h
    simp [linesPoll, h]
  · cases hx : extractLine (rd ++ newBytes) with
    | some v =>
      constructor
      · intro h
        rw [linesPoll] at h
        simp only [hx] at h
        simp at h
      · intro h
        exact absurd h.1 (by simp [hx])
    | none =>
      cases closed with
      | true => simp [linesPoll, hx]
      | false => simp [linesPoll, hx]

/-- Witness for C10: the buffer closes with one complete line and a trailing
partial byte; the complete line is still emitted. -/
theorem c10_lines_before_eof_witness :
    extractLine ([97, 13, 10, 98] ++ []) = some ([97], [98]) ∧
    linesPoll [97, 13, 10, 98] [] true = (PollResult.ready [97], [98]) :=
  ⟨by decide, (c10_lines_before_eof [97, 13, 10, 98] [] true).1 [97] [98] (by decide)⟩

/-- A broadcast appends the message to the queue of every entry whose address
differs from the sender. -/
theorem broadcastSend_mem_ne (reg : Registry) (self a : Addr) (q : List Buf) (msg : Buf)
    (hmem : (a, q) ∈ reg) (ha : a ≠ self) :
    (a, q ++ [msg]) ∈ broadcastSend reg self msg := by
  have h2 := List.mem_map_of_mem (fun e => if e.1 = self then e else (e.1, e.2 ++ [msg])) hmem
  simpa [broadcastSend, ha] using h2

/-- A broadcast leaves an entry carrying the sender's own address untouched. -/
theorem broadcastSend_mem_self (reg : Registry) (self : Addr) (q : List Buf) (msg : Buf)
    (hmem : (self, q) ∈ reg) :
    (self, q) ∈ broadcastSend reg self msg := by
  have h2 := List.mem_map_of_mem (fun e => if e.1 = self then e else (e.1, e.2 ++ [msg])) hmem
  simpa [broadcastSend] using h2

/-- Claim C1: a complete line received by a peer of one pool is enqueued, in
formatted form, onto the sink of every entry of the opposite pool whose
identity differs from the sender, an opposite-pool entry carrying the
sender's identity keeps its queue unchanged, and the sender's own pool is not
written at all — symmetrically for both listeners. -/
theorem c1_cross_pool_fanout (st : Pools) (self : Addr) (name message : Buf) :
    (∀ a q, (a, q) ∈ st.goPeers → a ≠ self →
        (a, q ++ [formatMessage name message]) ∈
          (cPeerHandleLine st self name message).goPeers) ∧
    (∀ q, (self, q) ∈ st.goPeers →
        (self, q) ∈ (cPeerHandleLine st self name message).goPeers) ∧
    (cPeerHandleLine st self name message).cPeers = st.cPeers ∧
    (∀ a q, (a, q) ∈ st.cPeers → a ≠ self →
        (a, q ++ [formatMessage name message]) ∈
          (goPeerHandleLine st self name message).cPeers) ∧
    (∀ q, (self, q) ∈ st.cPeers →
        (self, q) ∈ (goPeerHandleLine st self name message).cPeers) ∧
    (goPeerHandleLine st self name message).goPeers = st.goPeers := by
  refine ⟨?_, ?_, rfl, ?_, ?_, rfl⟩
  · intro a q hm ha; exact broadcastSend_mem_ne _ _ _ _ _ hm ha
  · intro q hm; exact broadcastSend_mem_self _ _ _ _ hm
  · intro a q hm ha; exact broadcastSend_mem_ne _ _ _ _ _ hm ha
  · intro q hm; exact broadcastSend_mem_self _ _ _ _ hm

/-- Witness for C1: with sender 1 registered in the c pool and the go pool
holding entries for 2 and for 1 itself, peer 2 receives the formatted
message and the go-pool entry of 1 stays unchanged. -/
theorem c1_cross_pool_fanout_witness :
    (2, [[7]] ++ [formatMessage [110] [109]]) ∈
      (cPeerHandleLine ⟨[(1, [])], [(2, [[7]]), (1, [])]⟩ 1 [110] [109]).goPeers ∧
    (1, ([] : List Buf)) ∈
      (cPeerHandleLine ⟨[(1, [])], [(2, [[7]]), (1, [])]⟩ 1 [110] [109]).goPeers :=
  ⟨(c1_cross_pool_fanout ⟨[(1, [])], [(2, [[7]]), (1, [])]⟩ 1 [110] [109]).1 2 [[7]]
      (by decide) (by decide),
   (c1_cross_pool_fanout ⟨[(1, [])], [(2, [[7]]), (1, [])]⟩ 1 [110] [109]).2.1 []
      (by decide)⟩

/-- Claim C8: a peer named alice that sends the line containing hello there
causes every differing-identity entry of the opposite pool to receive exactly
the bytes of the name, colon and space, the stripped line, and the re-appended
two-byte terminator. -/
theorem c8_roundtrip_alice (goReg : Registry) (self a : Addr) (q : List Buf)
    (hmem : (a, q) ∈ goReg) (hne : a ≠ self) :
    extractLine (strBytes "hello there" ++ [CR, LF]) = some (strBytes "hello there", []) ∧
    formatMessage (strBytes "alice") (strBytes "hello there") =
      strBytes "alice: hello there" ++ [CR, LF] ∧
    (a, q ++ [strBytes "alice: hello there" ++ [CR, LF]]) ∈
      broadcastSend goReg self (formatMessage (strBytes "alice") (strBytes "hello there")) := by
  refine ⟨by decide, by decide, ?_⟩
  have h := broadcastSend_mem_ne goReg self a q
      (formatMessage (strBytes "alice") (strBytes "hello there")) hmem hne
  have he : formatMessage (strBytes "alice") (strBytes "hello there")
      = strBytes "alice: hello there" ++ [CR, LF] := by decide
  rw [he] at h
  exact h

/-- Witness for C8 at a one-entry opposite pool. -/
theorem c8_roundtrip_alice_witness :
    extractLine (strBytes "hello there" ++ [CR, LF]) = some (strBytes "hello there", []) ∧
    formatMessage (strBytes "alice") (strBytes "hello there") =
      strBytes "alice: hello there" ++ [CR, LF] ∧
    (2, [] ++ [strBytes "alice: hello there" ++ [CR, LF]]) ∈
      broadcastSend [(2, [])] 1 (formatMessage (strBytes "alice") (strBytes "hello there")) :=
  c8_roundtrip_alice [(2, [])] 1 2 [] (by decide) (by decide)

/-- Components of one budgeted drain pass: the first `n` queued messages move
into the write buffer in order, the rest stay queued, and the self-notify
flag is raised exactly when the full budget was consumed. -/
theorem drainMessages_spec : ∀ (n : Nat) (queue : List Buf) (wr : Buf),
    (drainMessages n queue wr).1 = wr ++ (queue.take n).flatten ∧
    (drainMessages n queue wr).2.1 = queue.drop n ∧
    ((drainMessages n queue wr).2.2 = true ↔ n ≤ queue.length) := by
  intro n
  induction n with
  | zero =>
    intro queue wr
    exact ⟨by simp [drainMessages], by simp [drainMessages], by simp [drainMessages]⟩
  | succ k ih =>
    intro queue wr
    cases queue with
    | nil =>
      exact ⟨by simp [drainMessages], by simp [drainMessages], by simp [drainMessages]⟩
    | cons v rest =>
      obtain ⟨h1, h2, h3⟩ := ih rest (bufferWrite wr v)
      refine ⟨?_, ?_, ?_⟩
      · rw [drainMessages, h1]; simp [bufferWrite, List.append_assoc]
      · rw [drainMessages, h2]; simp
      · rw [drainMessages]
        simp only [List.length_cons]
        constructor
        · intro hb; have := h3.mp hb; omega
        · intro hb; exact h3.mpr (by omega)

/-- Enough scheduling turns move the whole queue into the write buffer in
order, leaving the queue empty: one turn per queued message always suffices. -/
theorem drainRounds_all : ∀ (n : Nat) (queue : List Buf) (wr : Buf),
    queue.length ≤ n → drainRounds n queue wr = (wr ++ queue.flatten, []) := by
  intro n
  induction n with
  | zero =>
    intro queue wr hlen
    have hq : queue = [] := List.eq_nil_of_length_eq_zero (by omega)
    subst hq
    simp [drainRounds]
  | succ k ih =>
    intro queue wr hlen
    obtain ⟨h1, h2, _⟩ := drainMessages_spec LINES_PER_TICK queue wr
    show drainRounds k (drainTick queue wr).2.1 (drainTick queue wr).1 =
      (wr ++ queue.flatten, [])
    rw [show (drainTick queue wr).2.1 = queue.drop LINES_PER_TICK from h2,
        show (drainTick queue wr).1 = wr ++ (queue.take LINES_PER_TICK).flatten from h1]
    rw [ih _ _ (by
      rw [List.length_drop]
      have hL : LINES_PER_TICK = 10 := rfl
      omega)]
    rw [List.append_assoc, ← List.flatten_append, List.take_append_drop]

/-- Claim C5: each activation dequeues at most the ten-message budget from the
private inbound queue into the write buffer, raises the self-notify flag
exactly when the budget was exhausted, and across repeated scheduling turns
every queued message reaches the write buffer in order — none is dropped by
the per-turn cap. -/
theorem c5_drain_budget (queue : List Buf) (wr : Buf) :
    (drainTick queue wr).1 = wr ++ (queue.take LINES_PER_TICK).flatten ∧
    (drainTick queue wr).2.1 = queue.drop LINES_PER_TICK ∧
    ((drainTick queue wr).2.2 = true ↔ LINES_PER_TICK ≤ queue.length) ∧
    drainRounds queue.length queue wr = (wr ++ queue.flatten, []) := by
  obtain ⟨h1, h2, h3⟩ := drainMessages_spec LINES_PER_TICK queue wr
  exact ⟨h1, h2, h3, drainRounds_all queue.length queue wr (le_refl _)⟩

/-- Witness for C5 at a concrete twelve-message queue: the first ten move in
this turn, the notify flag is raised, and twelve turns deliver everything. -/
theorem c5_drain_budget_witness :
    (drainTick [[1], [2], [3], [4], [5], [6], [7], [8], [9], [10], [11], [12]] []).1 =
      [] ++ (([[1], [2], [3], [4], [5], [6], [7], [8], [9], [10], [11], [12]] :
        List Buf).take LINES_PER_TICK).flatten ∧
    (drainTick [[1], [2], [3], [4], [5], [6], [7], [8], [9], [10], [11], [12]] []).2.1 =
      ([[1], [2], [3], [4], [5], [6], [7], [8], [9], [10], [11], [12]] :
        List Buf).drop LINES_PER_TICK ∧
    ((drainTick [[1], [2], [3], [4], [5], [6], [7], [8], [9], [10], [11], [12]] []).2.2 = true ↔
      LINES_PER_TICK ≤ ([[1], [2], [3], [4], [5], [6], [7], [8], [9], [10], [11], [12]] :
        List Buf).length) ∧
    drainRounds ([[1], [2], [3], [4], [5], [6], [7], [8], [9], [10], [11], [12]] :
        List Buf).length [[1], [2], [3], [4], [5], [6], [7], [8], [9], [10], [11], [12]] [] =
      ([] ++ ([[1], [2], [3], [4], [5], [6], [7], [8], [9], [10], [11], [12]] :
        List Buf).flatten, []) :=
  c5_drain_budget [[1], [2], [3], [4], [5], [6], [7], [8], [9], [10], [11], [12]] []

/-- Send events listed after the lock and before the unlock are all counted
as occurring under the lock. -/
theorem allSendsUnderLock_sends : ∀ (l : List (Addr × List Buf)),
    allSendsUnderLock ((l.map (fun e => BEvent.send e.1)) ++ [BEvent.unlock]) true = true := by
  intro l
  induction l with
  | nil => rfl
  | cons x xs ih => simpa [allSendsUnderLock] using ih

/-- Counterexample to C3 as stated: already for a one-entry registry and a
differing sender, the broadcast of the source performs a send attempt while
the registry lock is held, and its event trace differs from the
lock-copy-unlock-send trace the claim describes. -/
theorem c3_snapshot_counterexample :
    sendUnderLock (broadcastTrace [(1, [])] 0) false = true ∧
    broadcastTrace [(1, [])] 0 ≠ broadcastSnapshotTrace [(1, [])] 0 := by
  decide

/-- Amended C3: every broadcast takes the registry lock and iterates the live
map while holding it — every per-peer send attempt (a non-blocking unbounded
enqueue, not a network call) happens under the lock, which is released only
after the last send; the sends target exactly the differing-identity
entries. -/
theorem c3_sends_under_live_lock (reg : Registry) (self : Addr) :
    allSendsUnderLock (broadcastTrace reg self) false = true ∧
    (∀ a, BEvent.send a ∈ broadcastTrace reg self ↔ ∃ q, (a, q) ∈ reg ∧ a ≠ self) := by
  constructor
  · exact allSendsUnderLock_sends (reg.filter (fun e => e.1 != self))
  · intro a
    simp only [broadcastTrace, List.mem_append, List.mem_map, List.mem_filter,
      List.mem_singleton]
    constructor
    · rintro ((h | ⟨e, ⟨he, hne⟩, heq⟩) | h)
      · exact absurd h (by simp)
      · obtain ⟨a2, q⟩ := e
        injection heq with heq2
        subst heq2
        exact ⟨q, he, by simpa using hne⟩
      · exact absurd h (by simp)
    · rintro ⟨q, hq, hne⟩
      left; right
      exact ⟨(a, q), ⟨hq, by simpa using hne⟩, rfl⟩

/-- Witness for the amended C3 at a concrete one-entry registry. -/
theorem c3_sends_under_live_lock_witness :
    allSendsUnderLock (broadcastTrace [(1, [[5]])] 0) false = true ∧
    (BEvent.send 1 ∈ broadcastTrace [(1, [[5]])] 0 ↔
      ∃ q, ((1 : Addr), q) ∈ [((1 : Addr), [[5]])] ∧ (1 : Addr) ≠ 0) :=
  ⟨(c3_sends_under_live_lock [(1, [[5]])] 0).1,
   (c3_sends_under_live_lock [(1, [[5]])] 0).2 1⟩

/-- Counterexample to C4 as stated: registering an identity that is already
present succeeds and silently replaces the stored sink — the old entry is
gone, and no failure occurs. -/
theorem c4_register_replaces_counterexample :
    registerPeer [(1, 5)] 1 7 = [(1, 7)] ∧
    (1, 5) ∈ ([(1, 5)] : RegMap) ∧ (1, 5) ∉ registerPeer [(1, 5)] 1 7 := by
  decide

/-- Amended C4: registration always succeeds; the new sink is stored under
the identity, and when the identity was already present with a different
sink, that old entry is silently replaced rather than kept or reported. -/
theorem c4_register_always_succeeds (reg : RegMap) (addr : Addr) (tx : Nat) :
    (addr, tx) ∈ registerPeer reg addr tx ∧
    ∀ old, (addr, old) ∈ reg → old ≠ tx → (addr, old) ∉ registerPeer reg addr tx := by
  constructor
  · by_cases hc : addr ∈ reg.map Prod.fst
    · rw [registerPeer, if_pos hc]
      obtain ⟨e, he, heq⟩ := List.mem_map.mp hc
      have h2 := List.mem_map_of_mem (fun e => if e.1 = addr then (addr, tx) else e) he
      simpa [heq] using h2
    · rw [registerPeer, if_neg hc]
      simp
  · intro old hold hne
    by_cases hc : addr ∈ reg.map Prod.fst
    · rw [registerPeer, if_pos hc]
      intro hcontra
      obtain ⟨e, he, heq⟩ := List.mem_map.mp hcontra
      by_cases he1 : e.1 = addr
      · rw [if_pos he1] at heq
        injection heq with hA hB
        exact hne hB.symm
      · rw [if_neg he1] at heq
        exact he1 (by rw [heq])
    · intro _
      exact hc (List.mem_map_of_mem Prod.fst hold)

/-- Witness for the amended C4: with identity 1 holding sink 5, registering
sink 7 stores the new sink and drops the old entry. -/
theorem c4_register_always_succeeds_witness :
    (1, 7) ∈ registerPeer [(1, 5)] 1 7 ∧ (1, 5) ∉ registerPeer [(1, 5)] 1 7 :=
  ⟨(c4_register_always_succeeds [(1, 5)] 1 7).1,
   (c4_register_always_succeeds [(1, 5)] 1 7).2 5 (by decide) (by decide)⟩

/-- Counterexample to C6 as stated: in one activation whose flush reports it
would block (socket write capacity zero, three bytes buffered), the agent
still reads the complete line held in its read buffer and fans it out to the
opposite pool instead of yielding first. -/
theorem c6_flush_block_counterexample :
    (cPeerPoll ⟨[110], 1, [], [1, 2, 3], [104, 105, 13, 10]⟩ ⟨[], [(2, [])]⟩
        0 [] false).2.2.2 = FlushResult.notReady ∧
    (cPeerPoll ⟨[110], 1, [], [1, 2, 3], [104, 105, 13, 10]⟩ ⟨[], [(2, [])]⟩
        0 [] false).2.1 = ⟨[], [(2, [formatMessage [110] [104, 105]])]⟩ ∧
    (cPeerPoll ⟨[110], 1, [], [1, 2, 3], [104, 105, 13, 10]⟩ ⟨[], [(2, [])]⟩
        0 [] false).1.wr = [1, 2, 3] := by
  decide

/-- Amended C6: after draining, the agent attempts a flush, but the flush's
Ready-or-NotReady result is discarded: the lines read and fanned out, the
read buffer, and the completion outcome of the activation are identical
whatever the socket's write capacity, and a would-block flush merely leaves
the unwritten bytes in the write buffer for a later activation. -/
theorem c6_flush_result_discarded (st : CPeerSt) (pools : Pools) (w w2 : Nat)
    (newBytes : Buf) (closed : Bool) :
    (cPeerPoll st pools w newBytes closed).2.1 =
      (cPeerPoll st pools w2 newBytes closed).2.1 ∧
    (cPeerPoll st pools w newBytes closed).1.rd =
      (cPeerPoll st pools w2 newBytes closed).1.rd ∧
    (cPeerPoll st pools w newBytes closed).2.2.1 =
      (cPeerPoll st pools w2 newBytes closed).2.2.1 ∧
    ((cPeerPoll st pools w newBytes closed).2.2.2 = FlushResult.notReady →
      (cPeerPoll st pools w newBytes closed).1.wr = (drainTick st.rx st.wr).1.drop w) ∧
    (goPeerPoll st pools w newBytes closed).2.1 =
      (goPeerPoll st pools w2 newBytes closed).2.1 := by
  refine ⟨rfl, rfl, rfl, ?_, rfl⟩
  intro h
  have h2 : (pollFlushModel (drainTick st.rx st.wr).1 w).1 = FlushResult.notReady := h
  show (pollFlushModel (drainTick st.rx st.wr).1 w).2 = (drainTick st.rx st.wr).1.drop w
  rw [pollFlushModel] at h2 ⊢
  by_cases hle : ((drainTick st.rx st.wr).1).length ≤ w
  · rw [if_pos hle] at h2
    simp at h2
  · rw [if_neg hle]

/-- Witness for the amended C6 at the same concrete activation as the
counterexample, paired with a second capacity value. -/
theorem c6_flush_result_discarded_witness :
    (cPeerPoll ⟨[110], 1, [], [1, 2, 3], []⟩ ⟨[], []⟩ 0 [] false).2.2.2 =
      FlushResult.notReady ∧
    (cPeerPoll ⟨[110], 1, [], [1, 2, 3], []⟩ ⟨[], []⟩ 0 [] false).1.wr =
      (drainTick [] [1, 2, 3]).1.drop 0 :=
  ⟨by decide,
   (c6_flush_result_discarded ⟨[110], 1, [], [1, 2, 3], []⟩ ⟨[], []⟩ 0 5 [] false).2.2.2.1
     (by decide)⟩

/-- Updating one connection's lifecycle state never changes the recorded
addresses. -/
theorem keys_setConn : ∀ (conns : List (Addr × ConnSt)) (addr : Addr) (st : ConnSt),
    (setConn conns addr st).map Prod.fst = conns.map Prod.fst := by
  intro conns addr st
  induction conns with
  | nil => rfl
  | cons e tail ih =>
    show ((if e.1 = addr then (addr, st) else e) :: setConn tail addr st).map Prod.fst =
      (e :: tail).map Prod.fst
    by_cases h : e.1 = addr
    · rw [if_pos h]
      simp only [List.map_cons]
      rw [ih]
      simp [h]
    · rw [if_neg h]
      simp only [List.map_cons]
      rw [ih]

/-- Membership for a differing address is unchanged by a state update. -/
theorem mem_setConn_of_ne (conns : List (Addr × ConnSt)) (addr a : Addr) (x st : ConnSt)
    (hne : a ≠ addr) : (a, x) ∈ setConn conns addr st ↔ (a, x) ∈ conns := by
  rw [setConn]
  constructor
  · intro h
    obtain ⟨e, he, heq⟩ := List.mem_map.mp h
    by_cases h1 : e.1 = addr
    · rw [if_pos h1] at heq
      injection heq with hA hB
      exact absurd hA.symm hne
    · rw [if_neg h1] at heq
      rwa [heq] at he
  · intro h
    have h2 := List.mem_map_of_mem (fun e => if e.1 = addr then (addr, st) else e) h
    simpa [hne] using h2

/-- A present address is still present, with the new state, after an update. -/
theorem mem_setConn_self (conns : List (Addr × ConnSt)) (addr : Addr) (x st : ConnSt)
    (h : (addr, x) ∈ conns) : (addr, st) ∈ setConn conns addr st := by
  have h2 := List.mem_map_of_mem (fun e => if e.1 = addr then (addr, st) else e) h
  simpa [setConn] using h2

/-- After an update of an address, the only state recorded under that address
is the new one. -/
theorem mem_setConn_key (conns : List (Addr × ConnSt)) (addr : Addr) (st x : ConnSt)
    (h : (addr, x) ∈ setConn conns addr st) : x = st := by
  rw [setConn] at h
  obtain ⟨e, he, heq⟩ := List.mem_map.mp h
  by_cases h1 : e.1 = addr
  · rw [if_pos h1] at heq
    injection heq with hA hB
    exact hB.symm
  · rw [if_neg h1] at heq
    exact absurd (by rw [heq]) h1

/-- In an association list with distinct keys, a key determines its value. -/
theorem nodup_key_unique {β : Type} : ∀ (l : List (Addr × β)),
    (l.map Prod.fst).Nodup → ∀ (a : Addr) (x y : β), (a, x) ∈ l → (a, y) ∈ l → x = y := by
  intro l
  induction l with
  | nil => intro _ a x y hx _; simp at hx
  | cons e tail ih =>
    intro hnd a x y hx hy
    simp only [List.map_cons, List.nodup_cons] at hnd
    obtain ⟨hnotin, hnd2⟩ := hnd
    rcases List.mem_cons.mp hx with hx1 | hx1
    · rcases List.mem_cons.mp hy with hy1 | hy1
      · exact (Prod.ext_iff.mp (hx1.trans hy1.symm)).2
      · exfalso
        have hmem : a ∈ tail.map Prod.fst := List.mem_map_of_mem Prod.fst hy1
        rw [← hx1] at hnotin
        exact hnotin hmem
    · rcases List.mem_cons.mp hy with hy1 | hy1
      · exfalso
        have hmem : a ∈ tail.map Prod.fst := List.mem_map_of_mem Prod.fst hx1
        rw [← hy1] at hnotin
        exact hnotin hmem
      · exact ih hnd2 a x y hx1 hy1

/-- Presence of a key among the mapped-out keys is presence of some entry. -/
theorem mem_keys_iff {β : Type} (l : List (Addr × β)) (a : Addr) :
    a ∈ l.map Prod.fst ↔ ∃ t, (a, t) ∈ l := by
  rw [List.mem_map]
  constructor
  · rintro ⟨e, he, rfl⟩
    exact ⟨e.2, he⟩
  · rintro ⟨t, ht⟩
    exact ⟨(a, t), ht, rfl⟩

/-- Every pool transition preserves the registry invariant. -/
theorem poolStep_inv (s t : PoolSys) (hstep : PoolStep s t) (hinv : PoolInv s) : PoolInv t := by
  obtain ⟨hnd, hiff⟩ := hinv
  cases hstep with
  | accept addr hfresh =>
    constructor
    · simp only [List.map_append, List.map_cons, List.map_nil]
      rw [List.nodup_append]
      exact ⟨hnd, List.nodup_singleton _, by simpa [List.disjoint_singleton] using hfresh⟩
    · intro a
      have hmem : ((a, ConnSt.active) ∈ s.conns ++ [(addr, ConnSt.awaitingName)]) ↔
          (a, ConnSt.active) ∈ s.conns := by simp
      rw [hmem]
      exact hiff a
  | receiveName addr tx h =>
    have hnotactive : (addr, ConnSt.active) ∉ s.conns := by
      intro hc
      have h2 := nodup_key_unique s.conns hnd addr ConnSt.awaitingName ConnSt.active h hc
      exact absurd h2 (by decide)
    have hnoreg : addr ∉ s.reg.map Prod.fst := by
      rw [mem_keys_iff]
      rintro ⟨t0, ht0⟩
      exact hnotactive ((hiff addr).mp ⟨t0, ht0⟩)
    have hreg : registerPeer s.reg addr tx = s.reg ++ [(addr, tx)] := by
      rw [registerPeer, if_neg hnoreg]
    constructor
    · rw [keys_setConn]; exact hnd
    · intro a
      rw [hreg]
      by_cases ha : a = addr
      · subst ha
        constructor
        · intro _
          exact mem_setConn_self s.conns a ConnSt.awaitingName ConnSt.active h
        · intro _
          exact ⟨tx, by simp⟩
      · constructor
        · rintro ⟨t0, ht0⟩
          rcases List.mem_append.mp ht0 with h2 | h2
          · exact (mem_setConn_of_ne s.conns addr a ConnSt.active ConnSt.active ha).mpr
              ((hiff a).mp ⟨t0, h2⟩)
          · simp at h2
            exact absurd h2.1 ha
        · intro h2
          have h3 := (mem_setConn_of_ne s.conns addr a ConnSt.active ConnSt.active ha).mp h2
          obtain ⟨t0, ht0⟩ := (hiff a).mpr h3
          exact ⟨t0, List.mem_append.mpr (Or.inl ht0)⟩
  | eofBeforeName addr h =>
    have hnotactive : (addr, ConnSt.active) ∉ s.conns := by
      intro hc
      have h2 := nodup_key_unique s.conns hnd addr ConnSt.awaitingName ConnSt.active h hc
      exact absurd h2 (by decide)
    constructor
    · rw [keys_setConn]; exact hnd
    · intro a
      by_cases ha : a = addr
      · subst ha
        constructor
        · rintro ⟨t0, ht0⟩
          exact absurd ((hiff a).mp ⟨t0, ht0⟩) hnotactive
        · intro h2
          have h3 := mem_setConn_key s.conns a ConnSt.terminated ConnSt.active h2
          exact absurd h3 (by decide)
      · rw [mem_setConn_of_ne s.conns addr a ConnSt.active ConnSt.terminated ha]
        exact hiff a
  | disconnect addr h =>
    constructor
    · rw [keys_setConn]; exact hnd
    · intro a
      by_cases ha : a = addr
      · subst ha
        constructor
        · rintro ⟨t0, ht0⟩
          simp [unregisterPeer, List.mem_filter] at ht0
        · intro h2
          have h3 := mem_setConn_key s.conns a ConnSt.terminated ConnSt.active h2
          exact absurd h3 (by decide)
      · constructor
        · rintro ⟨t0, ht0⟩
          simp only [unregisterPeer, List.mem_filter, bne_iff_ne] at ht0
          exact (mem_setConn_of_ne s.conns addr a ConnSt.active ConnSt.terminated ha).mpr
            ((hiff a).mp ⟨t0, ht0.1⟩)
        · intro h2
          have h3 := (mem_setConn_of_ne s.conns addr a ConnSt.active ConnSt.terminated ha).mp h2
          obtain ⟨t0, ht0⟩ := (hiff a).mpr h3
          refine ⟨t0, ?_⟩
          simp only [unregisterPeer, List.mem_filter, bne_iff_ne]
          exact ⟨ht0, ha⟩

/-- Every reachable pool state satisfies the registry invariant. -/
theorem reachable_inv (s : PoolSys) (h : Reachable s) : PoolInv s := by
  rw [Reachable] at h
  induction h with
  | refl =>
    constructor
    · simp
    · intro a; simp
  | tail hR hstep ih => exact poolStep_inv _ _ hstep ih

/-- Claim C9: at every reachable pool state an identity holds a registry
entry exactly when its connection has received its first (name) line and has
not yet terminated (is active); a connection still awaiting its name — in
particular one whose stream ends before any line — holds no entry, and a
terminated connection holds none either. -/
theorem c9_registry_iff_active (s : PoolSys) (hs : Reachable s) (a : Addr) :
    ((∃ tx, (a, tx) ∈ s.reg) ↔ (a, ConnSt.active) ∈ s.conns) ∧
    ((a, ConnSt.awaitingName) ∈ s.conns → ¬ ∃ tx, (a, tx) ∈ s.reg) ∧
    ((a, ConnSt.terminated) ∈ s.conns → ¬ ∃ tx, (a, tx) ∈ s.reg) := by
  obtain ⟨hnd, hiff⟩ := reachable_inv s hs
  refine ⟨hiff a, ?_, ?_⟩
  · intro hw hex
    have hact := (hiff a).mp hex
    have h2 := nodup_key_unique s.conns hnd a ConnSt.awaitingName ConnSt.active hw hact
    exact absurd h2 (by decide)
  · intro hw hex
    have hact := (hiff a).mp hex
    have h2 := nodup_key_unique s.conns hnd a ConnSt.terminated ConnSt.active hw hact
    exact absurd h2 (by decide)

/-- Witness for C9 at the reachable state where connection 1 was accepted and
then sent its name line, registering sink 5. -/
theorem c9_registry_iff_active_witness :
    Reachable ⟨[(1, ConnSt.active)], [(1, 5)]⟩ ∧
    (((∃ tx, ((1 : Addr), tx) ∈ ([((1 : Addr), 5)] : RegMap)) ↔
        ((1 : Addr), ConnSt.active) ∈ [((1 : Addr), ConnSt.active)]) ∧
      (((1 : Addr), ConnSt.awaitingName) ∈ [((1 : Addr), ConnSt.active)] →
        ¬ ∃ tx, ((1 : Addr), tx) ∈ ([((1 : Addr), 5)] : RegMap)) ∧
      (((1 : Addr), ConnSt.terminated) ∈ [((1 : Addr), ConnSt.active)] →
        ¬ ∃ tx, ((1 : Addr), tx) ∈ ([((1 : Addr), 5)] : RegMap))) := by
  have h1 : Reachable ⟨[(1, ConnSt.awaitingName)], []⟩ :=
    Relation.ReflTransGen.single (PoolStep.accept ⟨[], []⟩ 1 (by simp))
  have h2 : Reachable ⟨[(1, ConnSt.active)], [(1, 5)]⟩ :=
    Relation.ReflTransGen.tail h1
      (PoolStep.receiveName ⟨[(1, ConnSt.awaitingName)], []⟩ 1 5 (by simp))
  exact ⟨h2, c9_registry_iff_active _ h2 1⟩

end DoubleServer
